import Mathlib

/-!
Verification of the takvim appointment-calendar pipeline.

Shallow embedding of the repository's core logic:
  * the event classifier and name normalizer of src/lib/classification.ts
    (the live classifier, reached via src/lib/googleCalendar.ts), and
  * the API route pipeline of src/app/api/calendar/route.ts (current
    version): per-event mapping to display records, merge engine,
    interval flattening, availability derivation with day-of-week policy
    windows and blackout subtraction, surgery counters and final sort.

Modelling conventions:
  * JS strings are lists of Unicode scalar values (`Str`).  The JS case
    mappings (`toLowerCase`, `toLocaleLowerCase` with the tr-TR locale,
    and the corresponding upper-case maps) are embedded restricted to the
    ASCII/Turkish repertoire that the classification rules inspect; all
    other characters are left unchanged.  The one multi-character mapping
    that matters is kept: plain `toLowerCase` sends the dotted capital
    `İ` (U+0130) to `i` followed by the combining dot above (U+0307).
  * Timestamps are integer milliseconds since the Unix epoch.  The
    configured civil zone Europe/Istanbul is a fixed UTC+3 offset, and
    day keys (`format(toZonedTime(d, tz), 'yyyy-MM-dd')`) are modelled as
    the integer index of the Istanbul civil day.  The display-day loop
    (`eachDayOfInterval`) is modelled with the server clock in the same
    civil zone, so day k of the display range is the Istanbul midnight
    of the day of `timeMin` plus k days.
  * The calls to `Math.random()` that build the ids of synthesized
    availability slots are modelled by an explicit stream
    `rand : Nat → Str`, consumed in call order.
  * The regular expressions used by the normalizer/classifier are
    embedded by `rmatch`, a backtracking matcher over sequences of
    character-class items with greedy quantifiers, mirroring the
    JS engine's leftmost, greedy-with-backtracking semantics.
-/

/-- JS string, as a list of Unicode scalar values. -/
abbrev Str := List Char

/-- Categories returned by `categorizeEvent` in src/lib/classification.ts. -/
inductive Cat
  | surgery
  | checkup
  | appointment
  | blocked
  | ignore
deriving DecidableEq, Repr

/-- Event types of the route's `ProcessedEvent` in src/app/api/calendar/route.ts. -/
inductive EType
  | Surgery
  | Control
  | Exam
  | Online
  | Busy
  | Available
  | Cancelled
  | Anesthesia
deriving DecidableEq, Repr

/-! ## Character classes and case maps -/

/-- ASCII lower-casing of a single character; non-ASCII characters unchanged. -/
def asciiLowerChar (c : Char) : Char :=
  if 'A' ≤ c ∧ c ≤ 'Z' then Char.ofNat (c.toNat + 32) else c

/-- JS `toLocaleLowerCase('tr-TR')` on one character: the Turkic mappings send
`I` to dotless `ı` and dotted `İ` to plain `i`; the other Turkish capitals and
ASCII behave as usual (restricted repertoire, see module docstring). -/
def trLowerChar (c : Char) : Char :=
  if c = 'I' then 'ı'
  else if c = 'İ' then 'i'
  else if c = 'Ş' then 'ş'
  else if c = 'Ç' then 'ç'
  else if c = 'Ö' then 'ö'
  else if c = 'Ü' then 'ü'
  else if c = 'Ğ' then 'ğ'
  else asciiLowerChar c

/-- JS `toLocaleLowerCase('tr-TR')` on a string. -/
def trLower (s : Str) : Str := s.map trLowerChar

/-- JS plain `toLowerCase` on one character, for every character whose lower
case is again one character.  `İ` is handled separately in `stdLower`. -/
def stdLowerChar (c : Char) : Char :=
  if c = 'Ş' then 'ş'
  else if c = 'Ç' then 'ç'
  else if c = 'Ö' then 'ö'
  else if c = 'Ü' then 'ü'
  else if c = 'Ğ' then 'ğ'
  else asciiLowerChar c

/-- JS plain (locale-insensitive) `toLowerCase`: per Unicode SpecialCasing the
dotted capital `İ` (U+0130) lowercases to `i` followed by the combining dot
above (U+0307); every other character maps one-to-one. -/
def stdLower (s : Str) : Str :=
  s.flatMap fun c => if c = 'İ' then ['i', '̇'] else [stdLowerChar c]

/-- JS plain `toUpperCase` on one character: both `i` and dotless `ı` map to
`I`; Turkish lower-case letters map to their capitals. -/
def stdUpperChar (c : Char) : Char :=
  if c = 'ı' then 'I'
  else if c = 'ş' then 'Ş'
  else if c = 'ç' then 'Ç'
  else if c = 'ö' then 'Ö'
  else if c = 'ü' then 'Ü'
  else if c = 'ğ' then 'Ğ'
  else if 'a' ≤ c ∧ c ≤ 'z' then Char.ofNat (c.toNat - 32)
  else c

/-- JS `toLocaleUpperCase('tr-TR')` on one character: the Turkic mapping sends
plain `i` to dotted `İ`; otherwise as `stdUpperChar`. -/
def trUpperChar (c : Char) : Char :=
  if c = 'i' then 'İ' else stdUpperChar c

/-- ASCII digit test, the JS regex class `\d`. -/
def isDigitCh (c : Char) : Bool := decide ('0' ≤ c ∧ c ≤ '9')

/-- Whitespace test, the JS regex class `\s` (repertoire: the usual ASCII
whitespace characters). -/
def isWsCh (c : Char) : Bool := c = ' ' ∨ c = '\t' ∨ c = '\n' ∨ c = '\r'

/-- Clock separator of the `HH:MM` / `HH.MM` patterns. -/
def isSepCh (c : Char) : Bool := c = ':' ∨ c = '.'

/-- Unicode letter test (`\p{L}`), restricted to the ASCII/Turkish repertoire
the rules inspect.  The combining dot above (U+0307) is a mark, not a letter. -/
def isLetterCh (c : Char) : Bool :=
  c.isAlpha ∨ c = 'ı' ∨ c = 'İ' ∨ c = 'ş' ∨ c = 'Ş' ∨ c = 'ç' ∨ c = 'Ç' ∨
    c = 'ö' ∨ c = 'Ö' ∨ c = 'ü' ∨ c = 'Ü' ∨ c = 'ğ' ∨ c = 'Ğ'

/-- Case-insensitive comparison of an input character against a (lower-case)
pattern character, as the JS `i` flag does on this repertoire. -/
def ciEq (c pat : Char) : Bool := asciiLowerChar c = pat

/-! ## Substring search -/

/-- JS `String.prototype.includes`: does `pat` occur contiguously in `s`? -/
def containsSeq (pat : Str) : Str → Bool
  | [] => List.isPrefixOf pat []
  | c :: rest => List.isPrefixOf pat (c :: rest) || containsSeq pat rest

/-- Case-insensitive list prefix test (pattern given in lower case). -/
def ciPrefOf : Str → Str → Bool
  | [], _ => true
  | _ :: _, [] => false
  | p :: ps, c :: cs => ciEq c p && ciPrefOf ps cs

/-! ## A small backtracking regex core

The normalizer's patterns are sequences of character-class items with the
greedy quantifiers of JS regexes.  `rmatch` returns the length of the match
at the head of the input that the JS engine's greedy backtracking finds, or
`none`. -/

/-- One item of an embedded regex: a single mandatory class, an optional
class (`?`), a greedy star (`*`) or a greedy plus (`+`). -/
inductive RItem
  | lit (p : Char → Bool)
  | opt (p : Char → Bool)
  | star (p : Char → Bool)
  | plus (p : Char → Bool)

/-- Length of the longest run of characters satisfying `p` at the head. -/
def countWhile (p : Char → Bool) : Str → Nat
  | [] => 0
  | c :: rest => if p c then countWhile p rest + 1 else 0

/-- Greedy backtracking matcher anchored at the head of the input: tries the
largest consumption for each quantifier first, exactly as the JS engine. -/
def rmatch : List RItem → Str → Option Nat
  | [], _ => some 0
  | .lit _ :: _, [] => none
  | .lit p :: ps, c :: rest => if p c then (rmatch ps rest).map (· + 1) else none
  | .opt _ :: ps, [] => rmatch ps []
  | .opt p :: ps, c :: rest =>
      if p c then
        match rmatch ps rest with
        | some n => some (n + 1)
        | none => rmatch ps (c :: rest)
      else rmatch ps (c :: rest)
  | .star p :: ps, s =>
      let k := countWhile p s
      ((List.range (k + 1)).map (fun i => k - i)).findSome?
        (fun j => (rmatch ps (s.drop j)).map (· + j))
  | .plus _ :: _, [] => none
  | .plus p :: ps, c :: rest =>
      if p c then
        let k := countWhile p rest
        ((List.range (k + 1)).map (fun i => k - i)).findSome?
          (fun j => (rmatch ps (rest.drop j)).map (· + j + 1))
      else none

/-- Global regex replacement driver with fuel: scan left to right, replace
each (nonempty) match by `repl` and continue after it, as `String.replace`
with the `g` flag.  The fuel is the input length, which always suffices
because every match consumes at least one character. -/
def replaceScanF (m : Str → Option Nat) (repl : Str) : Nat → Str → Str
  | 0, s => s
  | _ + 1, [] => []
  | fuel + 1, c :: rest =>
      match m (c :: rest) with
      | some n => repl ++ replaceScanF m repl fuel ((c :: rest).drop (max n 1))
      | none => c :: replaceScanF m repl fuel rest

/-- Global regex replacement over a whole string. -/
def replaceScan (m : Str → Option Nat) (repl : Str) (s : Str) : Str :=
  replaceScanF m repl s.length s

/-! ## Name normalizer, src/lib/classification.ts `normalizeName` -/

/-- Head matcher for `/tel\s*[:.]?\s*[\d\s]+/gi`. -/
def matchTel (s : Str) : Option Nat :=
  match s with
  | t :: e :: l :: rest =>
      if ciEq t 't' && ciEq e 'e' && ciEq l 'l' then
        (rmatch [.star isWsCh, .opt isSepCh, .star isWsCh,
                 .plus (fun c => isDigitCh c || isWsCh c)] rest).map (· + 3)
      else none
  | _ => none

/-- Head matcher for `/(yas|yaş)\s*[:.]?\s*\d+/gi`. -/
def matchYas (s : Str) : Option Nat :=
  match s with
  | y :: a :: z :: rest =>
      if ciEq y 'y' && ciEq a 'a' && (ciEq z 's' || z = 'ş' || z = 'Ş') then
        (rmatch [.star isWsCh, .opt isSepCh, .star isWsCh, .plus isDigitCh] rest).map (· + 3)
      else none
  | _ => none

/-- Head matcher for `/iptal/gi`. -/
def matchIptal (s : Str) : Option Nat :=
  match s with
  | a :: b :: c :: d :: e :: _ =>
      if ciEq a 'i' && ciEq b 'p' && ciEq c 't' && ciEq d 'a' && ciEq e 'l' then some 5 else none
  | _ => none

/-- Head matcher for `/🔪/g`. -/
def matchKnife (s : Str) : Option Nat :=
  match s with
  | c :: _ => if c = '🔪' then some 1 else none
  | _ => none

/-- Head matcher for `/\([^)]*\)/g`. -/
def matchParen (s : Str) : Option Nat :=
  rmatch [.lit (· = '('), .star (fun c => !(c = ')')), .lit (· = ')')] s

/-- Head matcher for the clock pattern `/\d{1,2}[:.]\d{2}/g`. -/
def matchClock (s : Str) : Option Nat :=
  rmatch [.lit isDigitCh, .opt isDigitCh, .lit isSepCh, .lit isDigitCh, .lit isDigitCh] s

/-- Keywords of the cut-to-end rule
`/(yabancı|ortak|rino|kosta|revizyon|sekonder|septorin|tiplasti|kbb|implant|iy\s|İy\s).*$/gi`. -/
def cutKeywords : List Str :=
  [("yabancı".data), ("ortak".data), ("rino".data), ("kosta".data), ("revizyon".data),
   ("sekonder".data), ("septorin".data), ("tiplasti".data), ("kbb".data), ("implant".data)]

/-- Does one of the cut alternatives match at the head?  The `iy\s` / `İy\s`
alternatives need a whitespace character after the two letters. -/
def cutHit (s : Str) : Bool :=
  cutKeywords.any (fun k => ciPrefOf k s) ||
    (match s with
     | i :: y :: w :: _ => (ciEq i 'i' || i = 'İ') && ciEq y 'y' && isWsCh w
     | _ => false)

/-- Replacement by the empty string of the cut-to-end rule: everything from
the first position where an alternative matches is discarded. -/
def cutAt : Str → Str
  | [] => []
  | c :: rest => if cutHit (c :: rest) then [] else c :: cutAt rest

/-- Folding step 5 of `normalizeName`: the six lower-case Turkish letters are
replaced by their base Latin forms (the capitals are not touched, as in the
source). -/
def foldTurkishChar (c : Char) : Char :=
  if c = 'ı' then 'i'
  else if c = 'ş' then 's'
  else if c = 'ç' then 'c'
  else if c = 'ö' then 'o'
  else if c = 'ü' then 'u'
  else if c = 'ğ' then 'g'
  else c

/-- Splitting on runs of whitespace, dropping empty fragments; composed with
the length filter this is exactly `trim().split(/\s+/)` of the source. -/
def splitWsAux : Str → Str → List Str
  | [], acc => if acc.isEmpty then [] else [acc.reverse]
  | c :: rest, acc =>
      if isWsCh c then
        if acc.isEmpty then splitWsAux rest [] else acc.reverse :: splitWsAux rest []
      else splitWsAux rest (c :: acc)

/-- Whitespace tokenization of a string. -/
def splitWs (s : Str) : List Str := splitWsAux s []

/-- Stop list of administrative words removed token-wise by `normalizeName`. -/
def ignoredWords : List Str :=
  [("anestezi".data), ("pcr".data), ("yenidogan".data), ("yatis".data), ("yatış".data),
   ("plasti".data), ("plasty".data), ("op".data), ("bilgi".data), ("formu".data),
   ("hazırlık".data), ("dosya".data), ("dr".data), ("protokol".data), ("ve".data), ("iy".data)]

/-- Title-casing of one token: `w.charAt(0).toLocaleUpperCase('tr-TR') + w.slice(1)`. -/
def titleCaseTok : Str → Str
  | [] => []
  | c :: rest => trUpperChar c :: rest

/-- Embedding of `normalizeName` from src/lib/classification.ts: Turkish
lower-casing, removal of phone/age annotations, cut-to-end keywords, the
cancel word, the knife glyph, parenthesized asides and clock substrings,
Turkish letter folding, punctuation stripping, tokenization with the stop
list, and locale title-casing. -/
def normalizeName (name : Str) : Str :=
  let n0 := trLower name
  let n1 := replaceScan matchTel [' '] n0
  let n2 := replaceScan matchYas [' '] n1
  let n3 := cutAt n2
  let n4 := replaceScan matchIptal [' '] n3
  let n5 := replaceScan matchKnife [' '] n4
  let n6 := replaceScan matchParen [' '] n5
  let n7 := replaceScan matchClock [' '] n6
  let n8 := n7.map foldTurkishChar
  let n9 := n8.map (fun c => if isLetterCh c || isWsCh c || isDigitCh c then c else ' ')
  let toks := splitWs n9
  let kept := toks.filter (fun w => decide (1 < w.length) && !(ignoredWords.contains w))
  List.intercalate [' '] (kept.map titleCaseTok)

/-! ## Event classifier, src/lib/classification.ts `categorizeEvent` -/

/-- Keywords of the blocked rule. -/
def blockedKeywords : List Str :=
  [("xxx".data), ("izin".data), ("kongre".data), ("toplanti".data), ("off".data),
   ("yokum".data), ("cumartesi".data), ("pazar".data)]

/-- Blocked rule: a blocked keyword occurs in the plain lower-casing of the
normalized title. -/
def blockedHit (title : Str) : Bool :=
  blockedKeywords.any (fun k => containsSeq k (stdLower (normalizeName title)))

/-- Red-color rule: the color tag is one of the reserved red identifiers. -/
def isRed (color : Option Str) : Bool :=
  color = some ("#dc2127".data) ∨ color = some ("#DC2127".data) ∨ color = some ("11".data)

/-- Info-glyph rule, checked on the raw title before normalization. -/
def infoHit (title : Str) : Bool :=
  containsSeq ("ℹ️".data) title || containsSeq ("ℹ".data) title

/-- Prefixes of the ignore rule. -/
def ignorePrefixes : List Str :=
  [("ipt".data), ("ert".data), ("iptal".data), ("ertelendi".data), ("bilgi".data)]

/-- Ignore-prefix rule on the lower-cased normalized title. -/
def ignorePrefixHit (title : Str) : Bool :=
  ignorePrefixes.any (fun p => List.isPrefixOf (stdLower p) (stdLower (normalizeName title)))

/-- Duration in minutes is at least `mins`: both endpoints must be present,
and the real-valued division of the source is equivalent to this integer
comparison in milliseconds. -/
def durGE (startMs endMs : Option Int) (mins : Int) : Bool :=
  match startMs, endMs with
  | some s, some e => decide (e - s ≥ mins * 60000)
  | _, _ => false

/-- Surgery-candidate rule: knife glyph, surgery words in the normalized
title, or a leading clock pattern on the raw title without `muayene`. -/
def surgeryCand (title : Str) : Bool :=
  containsSeq ("🔪".data) title ||
  containsSeq ("ameliyat".data) (normalizeName title) ||
  containsSeq ("surgery".data) (normalizeName title) ||
  ((matchClock title).isSome && !containsSeq ("muayene".data) (normalizeName title))

/-- Checkup rule: `/^[kK]\d?/` on the raw title, `/^\d+\.?\d*m\s/` on the
normalized title, the word `kontrol` in the normalized title, or `/^op\s/i`
on the raw title. -/
def checkupHit (title : Str) : Bool :=
  (rmatch [.lit (fun c => c = 'k' ∨ c = 'K'), .opt isDigitCh] title).isSome ||
  (rmatch [.plus isDigitCh, .opt (· = '.'), .star isDigitCh, .lit (· = 'm'), .lit isWsCh]
      (normalizeName title)).isSome ||
  containsSeq ("kontrol".data) (normalizeName title) ||
  (rmatch [.lit (fun c => ciEq c 'o'), .lit (fun c => ciEq c 'p'), .lit isWsCh] title).isSome

/-- Appointment rule: `/^[mM]\s/` on the raw title, or one of the words
`online`, `muayene`, `exam` in the normalized title. -/
def examHit (title : Str) : Bool :=
  (rmatch [.lit (fun c => c = 'm' ∨ c = 'M'), .lit isWsCh] title).isSome ||
  containsSeq ("online".data) (normalizeName title) ||
  containsSeq ("muayene".data) (normalizeName title) ||
  containsSeq ("exam".data) (normalizeName title)

/-- Embedding of `categorizeEvent` from src/lib/classification.ts with the
source's rule order: blocked keywords, red color, info glyph, ignore
prefixes, surgery candidacy gated by the 45-minute duration constraint,
checkup patterns, appointment patterns, and the appointment default. -/
def categorizeEvent (title : Str) (color : Option Str) (startMs endMs : Option Int) : Cat :=
  if blockedHit title then .blocked
  else if isRed color then .ignore
  else if infoHit title then .ignore
  else if ignorePrefixHit title then .ignore
  else if surgeryCand title then
    (if durGE startMs endMs 45 then .surgery else .appointment)
  else if checkupHit title then .checkup
  else if examHit title then .appointment
  else .appointment

/-! ## Route data model, src/app/api/calendar/route.ts -/

/-- An event as delivered by the calendar source adapter
(src/lib/googleCalendar.ts `processEvents`): original title, already
classified category, and millisecond timestamps. -/
structure ApiEvent where
  id : Str
  title : Str
  start : Int
  stop : Int
  category : Cat
deriving DecidableEq, Repr

/-- The route's `ProcessedEvent` record; `stop` is the source's `end` field
(`end` is reserved in Lean). -/
structure PEvent where
  id : Str
  title : Str
  start : Int
  stop : Int
  type : EType
  patientName : Option Str := none
  count : Option Nat := none
deriving DecidableEq, Repr

/-- Mapping of adapter categories to route event types, including the
anesthesia/online refinement of `appointment` on the lower-cased raw title
(route.ts step 2). -/
def mapType (category : Cat) (title : Str) : EType :=
  if category = .surgery then .Surgery
  else if category = .checkup then .Control
  else if category = .blocked then .Busy
  else if category = .appointment then
    (if containsSeq ("anestezi".data) (stdLower title)
        || containsSeq ("anesthesia".data) (stdLower title) then .Anesthesia
     else if containsSeq ("online".data) (stdLower title) then .Online
     else .Exam)
  else .Exam

/-- Per-type localized display title of route.ts step 2 (strict privacy). -/
def displayTitle (t : EType) : Str :=
  if t = .Surgery then ("Ameliyat".data)
  else if t = .Anesthesia then ("Anestezi".data)
  else if t = .Online then ("Online Görüşme".data)
  else if t = .Exam then ("Muayene".data)
  else if t = .Control then ("Kontrol".data)
  else if t = .Busy then ("Dolu".data)
  else ("Meşgul".data)

/-- JS `trim()` for whitespace. -/
def trimWs (s : Str) : Str :=
  ((s.dropWhile isWsCh).reverse.dropWhile isWsCh).reverse

/-- Segment of `title.split('🔪')[1]`: the text after the first knife glyph
up to the next one (or the end). -/
def knifeSeg1 (s : Str) : Str :=
  ((s.dropWhile (fun c => !(c = '🔪'))).drop 1).takeWhile (fun c => !(c = '🔪'))

/-- JS `namePart.trim().split(/\s+/)`: the empty string yields one empty
token, otherwise the whitespace-separated tokens. -/
def jsParts (s : Str) : List Str :=
  if (trimWs s).isEmpty then [[]] else splitWs s

/-- Server-side abbreviation of a surgery patient name (route.ts FIX #2):
first token case-normalized plus the initial of the second token, or the
lone token verbatim when there is only one. -/
def abbreviate (title : Str) : Str :=
  let namePart := if containsSeq ("🔪".data) title then trimWs (knifeSeg1 title) else title
  let parts := jsParts namePart
  match parts with
  | p0 :: p1 :: _ =>
      (match p0 with | [] => [] | c :: r => stdUpperChar c :: stdLower r) ++
        [' '] ++ (match p1 with | [] => [] | c :: _ => [stdUpperChar c]) ++ ['.']
  | [p0] => p0
  | [] => []

/-- Route.ts step 2 for one adapter event: type mapping, generic display
title, and the abbreviated patient name attached only to surgeries with a
nonempty original title. -/
def processApiEvent (e : ApiEvent) : PEvent :=
  let t := mapType e.category e.title
  { id := e.id, title := displayTitle t, start := e.start, stop := e.stop, type := t,
    patientName := if t = .Surgery ∧ e.title ≠ [] then some (abbreviate e.title) else none }

/-! ## Merge engine, route.ts step 4 and `createSummaryBlock` -/

/-- Decimal representation of a count, as JS template interpolation. -/
def natStr (n : Nat) : Str := (Nat.repr n).data

/-- The `turkishMap` of `createSummaryBlock`. -/
def turkishMap (t : EType) : Str :=
  match t with
  | .Exam => ("Muayene".data)
  | .Control => ("Kontrol".data)
  | .Anesthesia => ("Anestezi".data)
  | .Online => ("Online Görüşme".data)
  | .Busy => ("Dolu".data)
  | .Surgery => ("Ameliyat".data)
  | .Available => ("Müsait".data)
  | .Cancelled => ("İptal".data)

/-- Counting step of `createSummaryBlock`: bump the count of a key in an
association list that preserves first-insertion order, as a JS object. -/
def bumpCount (key : Str) : List (Str × Nat) → List (Str × Nat)
  | [] => [(key, 1)]
  | (k, n) :: rest => if k = key then (k, n + 1) :: rest else (k, n) :: bumpCount key rest

/-- Per-type counts of a member list, keyed by localized type name, in
first-occurrence order. -/
def typeCountsOf (events : List PEvent) : List (Str × Nat) :=
  events.foldl (fun acc e => bumpCount (turkishMap e.type) acc) []

/-- Embedding of `createSummaryBlock`: a single member is returned unchanged;
several members become one block spanning first start to last end, titled by
the localized per-type counts, typed by the common type or `Control`. -/
def createSummaryBlock (events : List PEvent) : PEvent :=
  match events with
  | [e] => e
  | e0 :: rest =>
      let all := e0 :: rest
      { id := ("group-".data) ++ e0.id,
        title := List.intercalate (", ".data)
          ((typeCountsOf all).map (fun kn => natStr kn.2 ++ [' '] ++ kn.1)),
        start := e0.start,
        stop := ((all.getLast?).getD e0).stop,
        type := if all.all (fun e => e.type = e0.type) then e0.type else .Control,
        count := some all.length }
  | [] => { id := [], title := [], start := 0, stop := 0, type := .Control }

/-- Flush helper: the merge loop emits a summary block only for a nonempty
buffer. -/
def flushB (buffer : List PEvent) : List PEvent :=
  if buffer.isEmpty then [] else [createSummaryBlock buffer]

/-- Embedding of the merge loop of route.ts step 4: surgeries flush the
buffer and pass through unmerged; other events join the buffer when the gap
to the last buffered event is under 15 minutes and the types are identical,
and otherwise flush it. -/
def mergeGo (buffer : List PEvent) : List PEvent → List PEvent
  | [] => flushB buffer
  | cur :: rest =>
      if cur.type = .Surgery then
        flushB buffer ++ cur :: mergeGo [] rest
      else
        match buffer with
        | [] => mergeGo [cur] rest
        | b0 :: btl =>
            let lastB := ((b0 :: btl).getLast?).getD b0
            if cur.start - lastB.stop < 15 * 60000 ∧ cur.type = lastB.type then
              mergeGo (buffer ++ [cur]) rest
            else
              createSummaryBlock buffer :: mergeGo [cur] rest

/-! ## Civil time in Europe/Istanbul -/

/-- Milliseconds per minute. -/
def msPerMin : Int := 60000

/-- Milliseconds per day. -/
def msPerDay : Int := 86400000

/-- Fixed UTC+3 offset of Europe/Istanbul, in milliseconds. -/
def istOffsetMs : Int := 10800000

/-- Index of the Istanbul civil day containing an instant (the model of the
`yyyy-MM-dd` day key); integer division here is floor division since the
divisor is positive. -/
def civilDayIdx (t : Int) : Int := (t + istOffsetMs) / msPerDay

/-- JS `getDay()` of the zoned date: 0 is Sunday.  Day index 0 (1970-01-01)
was a Thursday. -/
def weekdayOf (idx : Int) : Int := (idx + 4) % 7

/-- Instant of the Istanbul midnight opening civil day `idx`. -/
def istMidnight (idx : Int) : Int := idx * msPerDay - istOffsetMs

/-- Instant of the given Istanbul wall-clock time on civil day `idx`. -/
def mkTime (idx h m : Int) : Int := istMidnight idx + h * 3600000 + m * msPerMin

/-- Embedding of `getDayLimits` (route.ts step 5): Monday through Saturday
get 08:30–21:00, Sunday gets 08:00–09:30, on the civil day of the argument. -/
def getDayLimits (d : Int) : Int × Int :=
  let idx := civilDayIdx d
  let day := weekdayOf idx
  if 1 ≤ day ∧ day ≤ 6 then (mkTime idx 8 30, mkTime idx 21 0)
  else (mkTime idx 8 0, mkTime idx 9 30)

/-- A fresh `Available` record as `applyBlackout` builds them (the id is
filled in later by the gap-id assignment). -/
def mkAvail (s e : Int) : PEvent :=
  { id := [], title := ("Müsait".data), start := s, stop := e, type := .Available }

/-- Embedding of `applyBlackout`: on Tuesday–Thursday the 19:30–20:30 window
is subtracted from a candidate free interval, keeping only fragments of at
least 15 minutes; other days pass the interval through. -/
def applyBlackout (s e bas : Int) : List PEvent :=
  let idx := civilDayIdx bas
  let day := weekdayOf idx
  if 2 ≤ day ∧ day ≤ 4 then
    let bs := mkTime idx 19 30
    let be := mkTime idx 20 30
    if e ≤ bs ∨ s ≥ be then [mkAvail s e]
    else
      (if s < bs ∧ bs - s ≥ 15 * msPerMin then [mkAvail s bs] else []) ++
      (if e > be ∧ e - be ≥ 15 * msPerMin then [mkAvail be e] else [])
  else [mkAvail s e]

/-! ## Busy intervals, flattening and the availability sweep -/

/-- A busy interval in absolute milliseconds. -/
structure Iv where
  start : Int
  stop : Int
deriving DecidableEq, Repr

/-- Busy interval of a merged block: surgeries are extended 10 minutes
earlier by the pre-operative buffer. -/
def busyOf (e : PEvent) : Iv :=
  { start := if e.type = .Surgery then e.start - 10 * msPerMin else e.start, stop := e.stop }

/-- Comparison used to sort busy intervals by start. -/
def ivLe (a b : Iv) : Prop := a.start ≤ b.start

instance : DecidableRel ivLe := fun a b => by unfold ivLe; infer_instance

instance : IsTotal Iv ivLe := ⟨fun a b => le_total a.start b.start⟩

instance : IsTrans Iv ivLe := ⟨fun _ _ _ hab hbc => le_trans hab hbc⟩

/-- Inner loop of the interval flattening of route.ts step 5: absorb each
next interval that starts strictly before the current one ends. -/
def flattenGo (cur : Iv) : List Iv → List Iv
  | [] => [cur]
  | nxt :: rest =>
      if nxt.start < cur.stop then
        flattenGo { start := cur.start, stop := max cur.stop nxt.stop } rest
      else cur :: flattenGo nxt rest

/-- Flattening of a (sorted) busy-interval list into maximal runs. -/
def flattenIvs : List Iv → List Iv
  | [] => []
  | i :: rest => flattenGo i rest

/-- Cursor sweep of route.ts step 5: before each flattened busy run the
clamped candidate window is emitted (through the blackout subtraction) when
it is at least 15 minutes, and the trailing window after the last run
likewise.  The id field records the `gap-` / `gap-eod-` prefix; the random
suffix is appended by `tagIds`. -/
def sweepGo (bas ds de : Int) : Int → List Iv → List PEvent
  | cursor, [] =>
      if cursor < de ∧ de - cursor ≥ 15 * msPerMin then
        (applyBlackout cursor de bas).map (fun f => { f with id := ("gap-eod-".data) })
      else []
  | cursor, b :: rest =>
      let gs := max cursor ds
      let ge := min b.start de
      (if ge > gs ∧ ge - gs ≥ 15 * msPerMin then
        (applyBlackout gs ge bas).map (fun f => { f with id := ("gap-".data) })
       else []) ++ sweepGo bas ds de (max cursor b.stop) rest

/-- Availability derivation for one display day: policy window resolution,
busy-interval construction with the surgery pre-buffer, stable sort by
start, flattening, and the cursor sweep. -/
def daySlots (dayEvents : List PEvent) (refDate : Int) : List PEvent :=
  let limits := getDayLimits refDate
  let sorted := List.insertionSort ivLe (dayEvents.map busyOf)
  sweepGo refDate limits.1 limits.2 limits.1 (flattenIvs sorted)

/-- Appending one `Math.random()` draw to each synthesized slot id, in call
order; returns the advanced draw counter. -/
def tagIds (rand : Nat → Str) (ctr : Nat) : List PEvent → List PEvent × Nat
  | [] => ([], ctr)
  | f :: fs =>
      let rest := tagIds rand (ctr + 1) fs
      ({ f with id := f.id ++ rand ctr } :: rest.1, rest.2)

/-- The display-day loop of route.ts step 5 (FIX #4): for each of the 30
days starting at the day of `timeMin`, push that day's merged events and
then its tagged availability slots. -/
def daysLoop (rand : Nat → Str) (merged : List PEvent) : Nat → Int → Nat → List PEvent × Nat
  | 0, _, ctr => ([], ctr)
  | rem + 1, dayIdx, ctr =>
      let dayEvents := merged.filter (fun e => civilDayIdx e.start = dayIdx)
      let tagged := tagIds rand ctr (daySlots dayEvents (istMidnight dayIdx))
      let rest := daysLoop rand merged rem (dayIdx + 1) tagged.2
      (dayEvents ++ tagged.1 ++ rest.1, rest.2)

/-! ## Surgery counters and final sort, route.ts steps 6 and 7 -/

/-- Comparison used by the per-day surgery ordering and the final sort. -/
def peLe (a b : PEvent) : Prop := a.start ≤ b.start

instance : DecidableRel peLe := fun a b => by unfold peLe; infer_instance

instance : IsTotal PEvent peLe := ⟨fun a b => le_total a.start b.start⟩

instance : IsTrans PEvent peLe := ⟨fun _ _ _ hab hbc => le_trans hab hbc⟩

/-- Comparison on indexed records by start, for the stable per-day surgery
ordering. -/
def ipeLe (a b : Nat × PEvent) : Prop := a.2.start ≤ b.2.start

instance : DecidableRel ipeLe := fun a b => by unfold ipeLe; infer_instance

/-- Embedding of the surgery counters (route.ts step 6): every surgery
record's title gains a ` (r/n)` suffix, where `n` counts that civil day's
surgeries and `r` is the record's 1-based rank among them by start time
(stable, as the JS sort). -/
def surgeryCounters (evs : List PEvent) : List PEvent :=
  let indexed := evs.enum
  indexed.map (fun ie =>
    if ie.2.type = .Surgery then
      let day := civilDayIdx ie.2.start
      let group := indexed.filter (fun je => je.2.type = .Surgery ∧ civilDayIdx je.2.start = day)
      let ranked := List.insertionSort ipeLe group
      let r := ((ranked.findIdx? (fun je => je.1 = ie.1)).getD 0) + 1
      { ie.2 with
        title := ie.2.title ++ (" (".data) ++ natStr r ++ ("/".data)
                   ++ natStr ranked.length ++ (")".data) }
    else ie.2)

/-- Embedding of the whole route pipeline on an already-fetched adapter
batch: per-event mapping, the `timeMin` end filter (FIX #3), the merge loop,
the 30-display-day availability generation with random gap ids, the surgery
counters, and the final stable sort by start. -/
def routePipeline (rand : Nat → Str) (timeMin : Int) (apiEvents : List ApiEvent) : List PEvent :=
  let processed := apiEvents.map processApiEvent
  let filtered := processed.filter (fun e => e.stop ≥ timeMin)
  let merged := mergeGo [] filtered
  let finalEvents := (daysLoop rand merged 30 (civilDayIdx timeMin) 0).1
  List.insertionSort peLe (surgeryCounters finalEvents)

/-! ## Derived notions used by the claims -/

/-- A record with its id erased; two records with equal erasure agree on
every field except the id. -/
def eraseId (e : PEvent) : PEvent := { e with id := [] }

/-- The fixed localized generic titles of the pipeline (route.ts step 2
display titles and the availability label). -/
def genericTitles : List Str :=
  [("Meşgul".data), ("Ameliyat".data), ("Anestezi".data), ("Online Görüşme".data),
   ("Muayene".data), ("Kontrol".data), ("Dolu".data), ("Müsait".data)]

/-- The localized words that may appear in merged summary titles (the values
of `createSummaryBlock`'s `turkishMap`). -/
def summaryWords : List Str :=
  [("Muayene".data), ("Kontrol".data), ("Anestezi".data), ("Online Görüşme".data),
   ("Dolu".data), ("Ameliyat".data), ("Müsait".data), ("İptal".data)]

/-- Titles built exclusively from the fixed localized vocabulary: a generic
title, a comma-joined list of `count word` summary parts, or such a title
with a surgery-counter suffix. -/
inductive SafeTitle : Str → Prop
  | base (t : Str) : t ∈ genericTitles → SafeTitle t
  | summary (parts : List Str) :
      parts ≠ [] →
      (∀ p ∈ parts, ∃ n w, w ∈ summaryWords ∧ p = natStr n ++ [' '] ++ w) →
      SafeTitle (List.intercalate (", ".data) parts)
  | counter (t : Str) (r n : Nat) :
      SafeTitle t →
      SafeTitle (t ++ (" (".data) ++ natStr r ++ ("/".data) ++ natStr n ++ (")".data))

/-- Privacy contract of one output record relative to the input batch: the
title is built from the fixed vocabulary, and the only datum derived from an
original event title is the abbreviated patient label of a surgery record. -/
def SafeRecord (inputs : List ApiEvent) (r : PEvent) : Prop :=
  SafeTitle r.title ∧
    (r.patientName = none ∨
      (r.type = .Surgery ∧ ∃ e ∈ inputs, r.patientName = some (abbreviate e.title)))

/-! ## Concrete sample data for witnesses and counterexamples

Istanbul civil day 20093 is Sunday 2025-01-05; 20094 is Monday 2025-01-06;
20095 is Tuesday 2025-01-07. -/

/-- Index of the sample Sunday. -/
def sunIdx : Int := 20093

/-- Index of the sample Monday. -/
def monIdx : Int := 20094

/-- Sample Monday 10:00 Istanbul time. -/
def monTen : Int := mkTime monIdx 10 0

/-- A sample adapter surgery event, 10:00–12:00 on the sample Monday. -/
def sampleSurgeryApi : ApiEvent :=
  { id := ("s1".data), title := ("🔪 Ayşe Yılmaz".data), start := monTen,
    stop := monTen + 120 * msPerMin, category := .surgery }

/-- The processed record of the sample surgery. -/
def sampleSurgeryP : PEvent := processApiEvent sampleSurgeryApi

/-- A sample 30-minute control visit at a given start instant. -/
def ctrlEvent (i : Nat) (s : Int) : PEvent :=
  { id := natStr i, title := ("Kontrol".data), start := s, stop := s + 30 * msPerMin,
    type := .Control }

/-- One modelled `Math.random()` stream. -/
def randA : Nat → Str := fun _ => ("0".data)

/-- A second modelled `Math.random()` stream. -/
def randB : Nat → Str := fun _ => ("1".data)

/-- The merged block expected from three close control visits starting at
`monTen` (10-minute gaps). -/
def ctrlSummaryExpected : PEvent :=
  { id := ("group-1".data), title := ("3 Kontrol".data), start := monTen,
    stop := monTen + 110 * msPerMin, type := .Control, count := some 3 }

/-- The morning availability slot of the sample Monday with the surgery
booked 10:00–12:00 (pre-operative buffer from 09:50). -/
def monMorningSlot : PEvent :=
  { id := ("gap-".data), title := ("Müsait".data), start := mkTime monIdx 8 30,
    stop := mkTime monIdx 9 50, type := .Available }

/-- The single full-window slot of an empty sample Sunday. -/
def sunFullSlot : PEvent :=
  { id := ("gap-eod-".data), title := ("Müsait".data), start := mkTime sunIdx 8 0,
    stop := mkTime sunIdx 9 30, type := .Available }

/-- Equality of records up to the id field, the randomness boundary of the
pipeline. -/
def IdEq (a b : PEvent) : Prop := eraseId a = eraseId b

/-- The surgery record expected in the pipeline response for the sample
batch: generic title with the day counter, abbreviated patient label. -/
def surgOutRec : PEvent :=
  { id := ("s1".data), title := ("Ameliyat (1/1)".data), start := monTen,
    stop := monTen + 120 * msPerMin, type := .Surgery,
    patientName := some ("Ayşe Y.".data), count := none }

/-! ## Properties of the blackout subtraction and the sweep -/

theorem applyBlackout_mem (s e bas : Int) (f : PEvent) (hf : f ∈ applyBlackout s e bas) :
    f = mkAvail s e ∨ (∃ b, s < b ∧ b < e ∧ f = mkAvail s b) ∨
      (∃ b, s < b ∧ b < e ∧ f = mkAvail b e) := by
  unfold applyBlackout at hf
  by_cases hd : 2 ≤ weekdayOf (civilDayIdx bas) ∧ weekdayOf (civilDayIdx bas) ≤ 4
  · rw [if_pos hd] at hf
    by_cases hc : e ≤ mkTime (civilDayIdx bas) 19 30 ∨ s ≥ mkTime (civilDayIdx bas) 20 30
    · rw [if_pos hc] at hf
      simp only [List.mem_singleton] at hf
      exact Or.inl hf
    · rw [if_neg hc] at hf
      push_neg at hc
      rw [List.mem_append] at hf
      rcases hf with hf | hf
      · by_cases hcond : s < mkTime (civilDayIdx bas) 19 30 ∧
            mkTime (civilDayIdx bas) 19 30 - s ≥ 15 * msPerMin
        · rw [if_pos hcond] at hf
          simp only [List.mem_singleton] at hf
          exact Or.inr (Or.inl ⟨_, hcond.1, hc.1, hf⟩)
        · rw [if_neg hcond] at hf
          exact absurd hf (List.not_mem_nil f)
      · by_cases hcond : e > mkTime (civilDayIdx bas) 20 30 ∧
            e - mkTime (civilDayIdx bas) 20 30 ≥ 15 * msPerMin
        · rw [if_pos hcond] at hf
          simp only [List.mem_singleton] at hf
          exact Or.inr (Or.inr ⟨_, hc.2, hcond.1, hf⟩)
        · rw [if_neg hcond] at hf
          exact absurd hf (List.not_mem_nil f)
  · rw [if_neg hd] at hf
    simp only [List.mem_singleton] at hf
    exact Or.inl hf

@[simp] theorem mkAvail_start (s e : Int) : (mkAvail s e).start = s := rfl

@[simp] theorem mkAvail_stop (s e : Int) : (mkAvail s e).stop = e := rfl

@[simp] theorem mkAvail_title (s e : Int) : (mkAvail s e).title = ("Müsait".data) := rfl

@[simp] theorem mkAvail_type (s e : Int) : (mkAvail s e).type = EType.Available := rfl

@[simp] theorem mkAvail_pn (s e : Int) : (mkAvail s e).patientName = none := rfl

@[simp] theorem mkAvail_count (s e : Int) : (mkAvail s e).count = none := rfl

@[simp] theorem setId_start (g : PEvent) (x : Str) :
    ({ g with id := x } : PEvent).start = g.start := rfl

@[simp] theorem setId_stop (g : PEvent) (x : Str) :
    ({ g with id := x } : PEvent).stop = g.stop := rfl

@[simp] theorem setId_title (g : PEvent) (x : Str) :
    ({ g with id := x } : PEvent).title = g.title := rfl

@[simp] theorem setId_type (g : PEvent) (x : Str) :
    ({ g with id := x } : PEvent).type = g.type := rfl

@[simp] theorem setId_pn (g : PEvent) (x : Str) :
    ({ g with id := x } : PEvent).patientName = g.patientName := rfl

@[simp] theorem setId_count (g : PEvent) (x : Str) :
    ({ g with id := x } : PEvent).count = g.count := rfl

theorem sweepGo_spec (bas ds de : Int) (l : List Iv) :
    ∀ (cursor : Int), ds ≤ cursor → List.Sorted ivLe l →
      ∀ f ∈ sweepGo bas ds de cursor l,
        cursor ≤ f.start ∧ f.start < f.stop ∧ f.stop ≤ de ∧
        f.title = ("Müsait".data) ∧ f.type = .Available ∧ f.patientName = none ∧
        f.count = none ∧
        ∀ iv ∈ l, f.stop ≤ iv.start ∨ iv.stop ≤ f.start := by
  induction l with
  | nil =>
    intro cursor hc _ f hf
    unfold sweepGo at hf
    by_cases hcond : cursor < de ∧ de - cursor ≥ 15 * msPerMin
    · rw [if_pos hcond] at hf
      rw [List.mem_map] at hf
      obtain ⟨g, hg, rfl⟩ := hf
      have hb := applyBlackout_mem cursor de bas g hg
      obtain ⟨hc1, hc2⟩ := hcond
      rcases hb with h | ⟨b, h1, h2, h⟩ | ⟨b, h1, h2, h⟩ <;> subst h <;>
        refine ⟨by simp only [setId_start, setId_stop, mkAvail_start, mkAvail_stop]; omega, by simp only [setId_start, setId_stop, mkAvail_start, mkAvail_stop]; omega, by simp only [setId_start, setId_stop, mkAvail_start, mkAvail_stop]; omega, rfl, rfl, rfl, rfl,
          fun iv hiv => absurd hiv (List.not_mem_nil iv)⟩
    · rw [if_neg hcond] at hf
      exact absurd hf (List.not_mem_nil f)
  | cons b rest ih =>
    intro cursor hc hsorted f hf
    rw [List.sorted_cons] at hsorted
    unfold sweepGo at hf
    rw [List.mem_append] at hf
    rcases hf with hf | hf
    · by_cases hcond : min b.start de > max cursor ds ∧
          min b.start de - max cursor ds ≥ 15 * msPerMin
      · rw [if_pos hcond] at hf
        rw [List.mem_map] at hf
        obtain ⟨g, hg, rfl⟩ := hf
        obtain ⟨hc1, hc2⟩ := hcond
        have hmem := applyBlackout_mem (max cursor ds) (min b.start de) bas g hg
        have hbase : ∀ iv ∈ b :: rest, b.start ≤ iv.start := by
          intro iv hiv
          rcases List.mem_cons.1 hiv with rfl | hiv
          · exact le_rfl
          · exact hsorted.1 iv hiv
        rcases hmem with h | ⟨x, h1, h2, h⟩ | ⟨x, h1, h2, h⟩ <;> subst h
        · refine ⟨by simp only [setId_start, setId_stop, mkAvail_start, mkAvail_stop]; omega, by simp only [setId_start, setId_stop, mkAvail_start, mkAvail_stop]; omega, by simp only [setId_start, setId_stop, mkAvail_start, mkAvail_stop]; omega, rfl, rfl, rfl, rfl, ?_⟩
          intro iv hiv
          have := hbase iv hiv
          refine Or.inl (by simp only [setId_start, setId_stop, mkAvail_start, mkAvail_stop]; omega)
        · refine ⟨by simp only [setId_start, setId_stop, mkAvail_start, mkAvail_stop]; omega, by simp only [setId_start, setId_stop, mkAvail_start, mkAvail_stop]; omega, by simp only [setId_start, setId_stop, mkAvail_start, mkAvail_stop]; omega, rfl, rfl, rfl, rfl, ?_⟩
          intro iv hiv
          have := hbase iv hiv
          refine Or.inl (by simp only [setId_start, setId_stop, mkAvail_start, mkAvail_stop]; omega)
        · refine ⟨by simp only [setId_start, setId_stop, mkAvail_start, mkAvail_stop]; omega, by simp only [setId_start, setId_stop, mkAvail_start, mkAvail_stop]; omega, by simp only [setId_start, setId_stop, mkAvail_start, mkAvail_stop]; omega, rfl, rfl, rfl, rfl, ?_⟩
          intro iv hiv
          have := hbase iv hiv
          refine Or.inl (by simp only [setId_start, setId_stop, mkAvail_start, mkAvail_stop]; omega)
      · rw [if_neg hcond] at hf
        exact absurd hf (List.not_mem_nil f)
    · have hc2 : ds ≤ max cursor b.stop := le_trans hc (le_max_left _ _)
      obtain ⟨hcur, hlt, hde, htitle, htype, hpn, hcnt, hdisj⟩ :=
        ih (max cursor b.stop) hc2 hsorted.2 f hf
      refine ⟨le_trans (le_max_left _ _) hcur, hlt, hde, htitle, htype, hpn, hcnt, ?_⟩
      intro iv hiv
      rcases List.mem_cons.1 hiv with rfl | hiv
      · exact Or.inr (le_trans (le_max_right cursor iv.stop) hcur)
      · exact hdisj iv hiv

theorem ivLe_iff (a b : Iv) : ivLe a b ↔ a.start ≤ b.start := Iff.rfl

theorem flattenGo_spec (l : List Iv) :
    ∀ (cur : Iv), List.Sorted ivLe l → (∀ iv ∈ l, cur.start ≤ iv.start) →
      List.Sorted ivLe (flattenGo cur l) ∧
      (∀ jv ∈ flattenGo cur l, cur.start ≤ jv.start) ∧
      (∃ jv ∈ flattenGo cur l, jv.start ≤ cur.start ∧ cur.stop ≤ jv.stop) ∧
      (∀ iv ∈ l, ∃ jv ∈ flattenGo cur l, jv.start ≤ iv.start ∧ iv.stop ≤ jv.stop) := by
  induction l with
  | nil =>
    intro cur _ _
    unfold flattenGo
    refine ⟨List.sorted_singleton _, ?_, ⟨cur, List.mem_singleton_self _, le_rfl, le_rfl⟩, ?_⟩
    · intro jv hjv
      rw [List.mem_singleton] at hjv
      subst hjv
      exact le_rfl
    · intro iv hiv
      exact absurd hiv (List.not_mem_nil iv)
  | cons nxt rest ih =>
    intro cur hs hstarts
    rw [List.sorted_cons] at hs
    have hcn : cur.start ≤ nxt.start := hstarts nxt (List.mem_cons_self _ _)
    unfold flattenGo
    by_cases hover : nxt.start < cur.stop
    · rw [if_pos hover]
      have hstarts2 : ∀ iv ∈ rest,
          (Iv.mk cur.start (max cur.stop nxt.stop)).start ≤ iv.start := by
        intro iv hiv
        exact le_trans hcn ((ivLe_iff nxt iv).1 (hs.1 iv hiv))
      obtain ⟨hso, hst, ⟨jv, hjm, hjs, hje⟩, hcov⟩ :=
        ih (Iv.mk cur.start (max cur.stop nxt.stop)) hs.2 hstarts2
      refine ⟨hso, hst, ⟨jv, hjm, hjs, le_trans (le_max_left _ _) hje⟩, ?_⟩
      intro iv hiv
      rcases List.mem_cons.1 hiv with rfl | hiv
      · exact ⟨jv, hjm, le_trans hjs hcn, le_trans (le_max_right _ _) hje⟩
      · exact hcov iv hiv
    · rw [if_neg hover]
      obtain ⟨hso, hst, hcv, hcov⟩ := ih nxt hs.2 (fun iv hiv => (ivLe_iff nxt iv).1 (hs.1 iv hiv))
    -- the current run is emitted and flattening continues from the next interval
      refine ⟨?_, ?_, ⟨cur, List.mem_cons_self _ _, le_rfl, le_rfl⟩, ?_⟩
      · rw [List.sorted_cons]
        exact ⟨fun jv hjv => (ivLe_iff cur jv).2 (le_trans hcn (hst jv hjv)), hso⟩
      · intro jv hjv
        rcases List.mem_cons.1 hjv with rfl | hjv
        · exact le_rfl
        · exact le_trans hcn (hst jv hjv)
      · intro iv hiv
        rcases List.mem_cons.1 hiv with rfl | hiv
        · obtain ⟨jv, hm, h1, h2⟩ := hcv
          exact ⟨jv, List.mem_cons_of_mem _ hm, h1, h2⟩
        · obtain ⟨jv, hm, h1, h2⟩ := hcov iv hiv
          exact ⟨jv, List.mem_cons_of_mem _ hm, h1, h2⟩

theorem flattenIvs_spec (l : List Iv) (hs : List.Sorted ivLe l) :
    List.Sorted ivLe (flattenIvs l) ∧
      ∀ iv ∈ l, ∃ jv ∈ flattenIvs l, jv.start ≤ iv.start ∧ iv.stop ≤ jv.stop := by
  cases l with
  | nil =>
    exact ⟨List.sorted_nil, fun iv hiv => absurd hiv (List.not_mem_nil iv)⟩
  | cons i rest =>
    rw [List.sorted_cons] at hs
    obtain ⟨hso, _, hcv, hcov⟩ :=
      flattenGo_spec rest i hs.2 (fun iv hiv => (ivLe_iff i iv).1 (hs.1 iv hiv))
    refine ⟨hso, ?_⟩
    intro iv hiv
    rcases List.mem_cons.1 hiv with rfl | hiv
    · exact hcv
    · exact hcov iv hiv

theorem daySlots_spec (dayEvents : List PEvent) (refDate : Int) :
    ∀ f ∈ daySlots dayEvents refDate,
      (getDayLimits refDate).1 ≤ f.start ∧ f.start < f.stop ∧
      f.stop ≤ (getDayLimits refDate).2 ∧
      f.title = ("Müsait".data) ∧ f.type = .Available ∧ f.patientName = none ∧
      f.count = none ∧
      ∀ e ∈ dayEvents, f.stop ≤ (busyOf e).start ∨ (busyOf e).stop ≤ f.start := by
  intro f hf
  unfold daySlots at hf
  have hsorted : List.Sorted ivLe (List.insertionSort ivLe (dayEvents.map busyOf)) :=
    List.sorted_insertionSort ivLe _
  obtain ⟨hflat, hcov⟩ := flattenIvs_spec _ hsorted
  obtain ⟨hcur, hlt, hde, htitle, htype, hpn, hcnt, hdisj⟩ :=
    sweepGo_spec refDate (getDayLimits refDate).1 (getDayLimits refDate).2 _
      (getDayLimits refDate).1 le_rfl hflat f hf
  refine ⟨hcur, hlt, hde, htitle, htype, hpn, hcnt, ?_⟩
  intro e he
  have hmem : busyOf e ∈ List.insertionSort ivLe (dayEvents.map busyOf) :=
    (List.perm_insertionSort ivLe _).mem_iff.2 (List.mem_map_of_mem busyOf he)
  obtain ⟨jv, hjm, hjs, hje⟩ := hcov (busyOf e) hmem
  rcases hdisj jv hjm with h | h
  · exact Or.inl (le_trans h hjs)
  · exact Or.inr (le_trans hje h)

/-! ## Day-window arithmetic -/

theorem getDayLimits_cases (d : Int) :
    getDayLimits d = (mkTime (civilDayIdx d) 8 30, mkTime (civilDayIdx d) 21 0) ∨
    getDayLimits d = (mkTime (civilDayIdx d) 8 0, mkTime (civilDayIdx d) 9 30) := by
  unfold getDayLimits
  by_cases h : 1 ≤ weekdayOf (civilDayIdx d) ∧ weekdayOf (civilDayIdx d) ≤ 6
  · rw [if_pos h]
    exact Or.inl rfl
  · rw [if_neg h]
    exact Or.inr rfl

theorem getDayLimits_sunday (d : Int) (h : weekdayOf (civilDayIdx d) = 0) :
    getDayLimits d = (mkTime (civilDayIdx d) 8 0, mkTime (civilDayIdx d) 9 30) := by
  unfold getDayLimits
  rw [if_neg (by omega : ¬(1 ≤ weekdayOf (civilDayIdx d) ∧ weekdayOf (civilDayIdx d) ≤ 6))]

theorem limits_within_day (d : Int) :
    istMidnight (civilDayIdx d) ≤ (getDayLimits d).1 ∧
    (getDayLimits d).2 ≤ istMidnight (civilDayIdx d) + 21 * 3600000 ∧
    (getDayLimits d).1 < (getDayLimits d).2 ∧
    (getDayLimits d).2 - (getDayLimits d).1 ≥ 15 * msPerMin := by
  rcases getDayLimits_cases d with h | h <;> rw [h] <;>
    simp only [mkTime, istMidnight, msPerMin, msPerDay, istOffsetMs] <;>
    refine ⟨by omega, by omega, by omega, by omega⟩

theorem civilDayIdx_istMidnight (idx : Int) : civilDayIdx (istMidnight idx) = idx := by
  unfold civilDayIdx istMidnight msPerDay istOffsetMs
  omega

theorem civilDayIdx_of_window (idx t : Int) (h1 : istMidnight idx ≤ t)
    (h2 : t < istMidnight idx + 24 * 3600000) : civilDayIdx t = idx := by
  unfold civilDayIdx istMidnight msPerDay istOffsetMs at *
  omega

theorem daySlots_start_day (dayEvents : List PEvent) (idx : Int) (f : PEvent)
    (hf : f ∈ daySlots dayEvents (istMidnight idx)) : civilDayIdx f.start = idx := by
  obtain ⟨h1, h2, h3, _⟩ := daySlots_spec dayEvents (istMidnight idx) f hf
  have hl := limits_within_day (istMidnight idx)
  rw [civilDayIdx_istMidnight] at hl
  exact civilDayIdx_of_window idx f.start (le_trans hl.1 h1) (by omega)

/-! ## Merge-engine lemmas -/

theorem createSummaryBlock_single (e : PEvent) : createSummaryBlock [e] = e := rfl

theorem createSummaryBlock_cons2 (e0 e1 : PEvent) (rest : List PEvent) :
    createSummaryBlock (e0 :: e1 :: rest) =
      { id := ("group-".data) ++ e0.id,
        title := List.intercalate (", ".data)
          ((typeCountsOf (e0 :: e1 :: rest)).map (fun kn => natStr kn.2 ++ [' '] ++ kn.1)),
        start := e0.start,
        stop := (((e0 :: e1 :: rest).getLast?).getD e0).stop,
        type := if (e0 :: e1 :: rest).all (fun e => e.type = e0.type) then e0.type else .Control,
        count := some (e0 :: e1 :: rest).length } := rfl

theorem bumpCount_keys (key : Str) (acc : List (Str × Nat)) (kn : Str × Nat)
    (h : kn ∈ bumpCount key acc) : kn.1 = key ∨ kn ∈ acc := by
  induction acc with
  | nil =>
    unfold bumpCount at h
    rw [List.mem_singleton] at h
    subst h
    exact Or.inl rfl
  | cons hd tl ih =>
    obtain ⟨k, n⟩ := hd
    unfold bumpCount at h
    by_cases hk : k = key
    · rw [if_pos hk] at h
      rcases List.mem_cons.1 h with rfl | h
      · exact Or.inl hk
      · exact Or.inr (List.mem_cons_of_mem _ h)
    · rw [if_neg hk] at h
      rcases List.mem_cons.1 h with rfl | h
      · exact Or.inr (List.mem_cons_self _ _)
      · rcases ih h with h1 | h1
        · exact Or.inl h1
        · exact Or.inr (List.mem_cons_of_mem _ h1)

theorem bumpCount_ne_nil (key : Str) (acc : List (Str × Nat)) : bumpCount key acc ≠ [] := by
  cases acc with
  | nil => simp [bumpCount]
  | cons hd tl =>
    obtain ⟨k, n⟩ := hd
    unfold bumpCount
    by_cases hk : k = key
    · rw [if_pos hk]
      simp
    · rw [if_neg hk]
      simp

theorem typeCounts_fold_keys (evs : List PEvent) :
    ∀ (acc : List (Str × Nat)), (∀ kn ∈ acc, ∃ t : EType, kn.1 = turkishMap t) →
      ∀ kn ∈ evs.foldl (fun a e => bumpCount (turkishMap e.type) a) acc,
        ∃ t : EType, kn.1 = turkishMap t := by
  induction evs with
  | nil => exact fun acc hacc kn h => hacc kn h
  | cons e rest ih =>
    intro acc hacc kn h
    refine ih (bumpCount (turkishMap e.type) acc) ?_ kn h
    intro kn' h'
    rcases bumpCount_keys _ _ _ h' with h1 | h1
    · exact ⟨e.type, h1⟩
    · exact hacc kn' h1

theorem typeCounts_fold_ne_nil (evs : List PEvent) :
    ∀ acc : List (Str × Nat), acc ≠ [] →
      evs.foldl (fun a e => bumpCount (turkishMap e.type) a) acc ≠ [] := by
  induction evs with
  | nil => exact fun acc h => h
  | cons e rest ih => exact fun acc _ => ih _ (bumpCount_ne_nil _ _)

theorem turkishMap_mem_summaryWords (t : EType) : turkishMap t ∈ summaryWords := by
  cases t <;> decide

theorem getLastD_mem (l : List PEvent) (d : PEvent) (h : l ≠ []) : (l.getLast?).getD d ∈ l := by
  induction l with
  | nil => exact absurd rfl h
  | cons a tl ih =>
    cases tl with
    | nil => simp [List.getLast?]
    | cons b tl2 =>
      have := ih (by simp)
      rw [List.getLast?_cons_cons]
      exact List.mem_cons_of_mem _ this

theorem createSummaryBlock_safe (inputs : List ApiEvent) (buffer : List PEvent)
    (hne : buffer ≠ []) (hall : ∀ b ∈ buffer, SafeRecord inputs b) :
    SafeRecord inputs (createSummaryBlock buffer) := by
  match buffer with
  | [e] => exact hall e (List.mem_singleton_self e)
  | e0 :: e1 :: rest =>
    rw [createSummaryBlock_cons2]
    constructor
    · refine SafeTitle.summary _ ?_ ?_
      · have hnn : typeCountsOf (e0 :: e1 :: rest) ≠ [] := by
          unfold typeCountsOf
          show List.foldl _ _ (e0 :: e1 :: rest) ≠ []
          rw [List.foldl_cons]
          exact typeCounts_fold_ne_nil _ _ (bumpCount_ne_nil _ _)
        simpa using hnn
      · intro p hp
        rw [List.mem_map] at hp
        obtain ⟨kn, hkn, rfl⟩ := hp
        obtain ⟨t, ht⟩ := typeCounts_fold_keys _ _ (by simp) kn hkn
        exact ⟨kn.2, kn.1, ht ▸ turkishMap_mem_summaryWords t, rfl⟩
    · exact Or.inl rfl

theorem createSummaryBlock_stop_mem (buffer : List PEvent) (hne : buffer ≠ []) :
    ∃ b ∈ buffer, (createSummaryBlock buffer).stop = b.stop := by
  match buffer with
  | [e] => exact ⟨e, List.mem_singleton_self e, rfl⟩
  | e0 :: e1 :: rest =>
    rw [createSummaryBlock_cons2]
    exact ⟨_, getLastD_mem (e0 :: e1 :: rest) e0 (by simp), rfl⟩

theorem mergeGo_preserve (P : PEvent → Prop)
    (hsum : ∀ buffer : List PEvent, buffer ≠ [] →
      (∀ b ∈ buffer, P b) → P (createSummaryBlock buffer)) :
    ∀ (l buffer : List PEvent), (∀ b ∈ buffer, P b) → (∀ x ∈ l, P x) →
      ∀ r ∈ mergeGo buffer l, P r := by
  intro l
  induction l with
  | nil =>
    intro buffer hb _ r hr
    unfold mergeGo flushB at hr
    by_cases h : buffer.isEmpty
    · rw [if_pos h] at hr
      exact absurd hr (List.not_mem_nil r)
    · rw [if_neg h] at hr
      rw [List.mem_singleton] at hr
      subst hr
      exact hsum buffer (by simpa [List.isEmpty_iff] using h) hb
  | cons cur rest ih =>
    intro buffer hb hl r hr
    have hcur : P cur := hl cur (List.mem_cons_self _ _)
    have hrest : ∀ x ∈ rest, P x := fun x hx => hl x (List.mem_cons_of_mem _ hx)
    unfold mergeGo at hr
    by_cases hs : cur.type = EType.Surgery
    · rw [if_pos hs] at hr
      rw [List.mem_append] at hr
      rcases hr with hr | hr
      · unfold flushB at hr
        by_cases h : buffer.isEmpty
        · rw [if_pos h] at hr
          exact absurd hr (List.not_mem_nil r)
        · rw [if_neg h] at hr
          rw [List.mem_singleton] at hr
          subst hr
          exact hsum buffer (by simpa [List.isEmpty_iff] using h) hb
      · rcases List.mem_cons.1 hr with rfl | hr
        · exact hcur
        · exact ih [] (by simp) hrest r hr
    · rw [if_neg hs] at hr
      cases buffer with
      | nil => exact ih [cur] (by simpa using hcur) hrest r hr
      | cons b0 btl =>
        dsimp only at hr
        by_cases hg : cur.start - ((((b0 :: btl).getLast?).getD b0)).stop < 15 * 60000 ∧
            cur.type = (((b0 :: btl).getLast?).getD b0).type
        · rw [if_pos hg] at hr
          refine ih ((b0 :: btl) ++ [cur]) ?_ hrest r hr
          intro b hbm
          rw [List.mem_append] at hbm
          rcases hbm with hbm | hbm
          · exact hb b hbm
          · rw [List.mem_singleton] at hbm
            subst hbm
            exact hcur
        · rw [if_neg hg] at hr
          rcases List.mem_cons.1 hr with rfl | hr
          · exact hsum (b0 :: btl) (by simp) hb
          · exact ih [cur] (by simpa using hcur) hrest r hr

/-! ## Pipeline-stage membership lemmas -/

theorem eraseId_fields (a b : PEvent) (h : eraseId a = eraseId b) :
    a.title = b.title ∧ a.start = b.start ∧ a.stop = b.stop ∧ a.type = b.type ∧
    a.patientName = b.patientName ∧ a.count = b.count := by
  cases a
  cases b
  simp only [eraseId, PEvent.mk.injEq, true_and] at h
  exact ⟨h.1, h.2.1, h.2.2.1, h.2.2.2.1, h.2.2.2.2.1, h.2.2.2.2.2⟩

theorem tagIds_mem (rand : Nat → Str) :
    ∀ (l : List PEvent) (ctr : Nat) (x : PEvent), x ∈ (tagIds rand ctr l).1 →
      ∃ f ∈ l, eraseId x = eraseId f := by
  intro l
  induction l with
  | nil =>
    intro ctr x hx
    exact absurd hx (List.not_mem_nil x)
  | cons f fs ih =>
    intro ctr x hx
    unfold tagIds at hx
    dsimp only at hx
    rcases List.mem_cons.1 hx with rfl | hx
    · exact ⟨f, List.mem_cons_self _ _, rfl⟩
    · obtain ⟨g, hg, he⟩ := ih (ctr + 1) x hx
      exact ⟨g, List.mem_cons_of_mem _ hg, he⟩

theorem daysLoop_mem (rand : Nat → Str) (merged : List PEvent) :
    ∀ (rem : Nat) (dayIdx : Int) (ctr : Nat) (x : PEvent),
      x ∈ (daysLoop rand merged rem dayIdx ctr).1 →
      (x ∈ merged ∧ dayIdx ≤ civilDayIdx x.start ∧ civilDayIdx x.start < dayIdx + rem) ∨
      (∃ j : Int, dayIdx ≤ j ∧ j < dayIdx + rem ∧
        ∃ f ∈ daySlots (merged.filter (fun e => civilDayIdx e.start = j)) (istMidnight j),
          eraseId x = eraseId f) := by
  intro rem
  induction rem with
  | zero =>
    intro dayIdx ctr x hx
    exact absurd hx (List.not_mem_nil x)
  | succ rem ih =>
    intro dayIdx ctr x hx
    unfold daysLoop at hx
    dsimp only at hx
    rw [List.mem_append, List.mem_append] at hx
    rcases hx with (hx | hx) | hx
    · rw [List.mem_filter] at hx
      have hd : civilDayIdx x.start = dayIdx := by simpa using hx.2
      exact Or.inl ⟨hx.1, by omega, by omega⟩
    · obtain ⟨f, hf, he⟩ := tagIds_mem rand _ ctr x hx
      exact Or.inr ⟨dayIdx, le_rfl, by omega, f, hf, he⟩
    · rcases ih (dayIdx + 1) _ x hx with ⟨h1, h2, h3⟩ | ⟨j, h1, h2, hrest⟩
      · exact Or.inl ⟨h1, by omega, by omega⟩
      · exact Or.inr ⟨j, by omega, by omega, hrest⟩

theorem enumFrom_mem_snd {α : Type} :
    ∀ (l : List α) (n : Nat) (p : Nat × α), p ∈ l.enumFrom n → p.2 ∈ l := by
  intro l
  induction l with
  | nil =>
    intro n p hp
    exact absurd hp (List.not_mem_nil p)
  | cons a tl ih =>
    intro n p hp
    rw [List.enumFrom_cons] at hp
    rcases List.mem_cons.1 hp with rfl | hp
    · exact List.mem_cons_self _ _
    · exact List.mem_cons_of_mem _ (ih (n + 1) p hp)

@[simp] theorem setTitle_start (g : PEvent) (x : Str) :
    ({ g with title := x } : PEvent).start = g.start := rfl

@[simp] theorem setTitle_stop (g : PEvent) (x : Str) :
    ({ g with title := x } : PEvent).stop = g.stop := rfl

@[simp] theorem setTitle_type (g : PEvent) (x : Str) :
    ({ g with title := x } : PEvent).type = g.type := rfl

@[simp] theorem setTitle_pn (g : PEvent) (x : Str) :
    ({ g with title := x } : PEvent).patientName = g.patientName := rfl

@[simp] theorem setTitle_count (g : PEvent) (x : Str) :
    ({ g with title := x } : PEvent).count = g.count := rfl

@[simp] theorem setTitle_id (g : PEvent) (x : Str) :
    ({ g with title := x } : PEvent).id = g.id := rfl

theorem surgeryCounters_mem (l : List PEvent) (x : PEvent) (hx : x ∈ surgeryCounters l) :
    ∃ e ∈ l, x = e ∨
      (e.type = EType.Surgery ∧ x.start = e.start ∧ x.stop = e.stop ∧ x.type = e.type ∧
        x.patientName = e.patientName ∧ x.count = e.count ∧ x.id = e.id ∧
        ∃ r n : Nat, x.title = e.title ++ (" (".data) ++ natStr r ++ ("/".data) ++
          natStr n ++ (")".data)) := by
  unfold surgeryCounters at hx
  dsimp only at hx
  rw [List.mem_map] at hx
  obtain ⟨ie, hie, rfl⟩ := hx
  have hmem : ie.2 ∈ l := enumFrom_mem_snd l 0 ie hie
  refine ⟨ie.2, hmem, ?_⟩
  by_cases hs : ie.2.type = EType.Surgery
  · rw [if_pos hs]
    exact Or.inr ⟨hs, rfl, rfl, rfl, rfl, rfl, rfl, _, _, rfl⟩
  · rw [if_neg hs]
    exact Or.inl rfl

theorem displayTitle_mem (t : EType) : displayTitle t ∈ genericTitles := by
  cases t <;> decide

theorem processApiEvent_safe (inputs : List ApiEvent) (e : ApiEvent) (he : e ∈ inputs) :
    SafeRecord inputs (processApiEvent e) := by
  unfold processApiEvent
  dsimp only
  constructor
  · exact SafeTitle.base _ (displayTitle_mem _)
  · by_cases hc : mapType e.category e.title = EType.Surgery ∧ e.title ≠ []
    · rw [if_pos hc]
      exact Or.inr ⟨hc.1, e, he, rfl⟩
    · rw [if_neg hc]
      exact Or.inl rfl

theorem routePipeline_eq (rand : Nat → Str) (timeMin : Int) (apiEvents : List ApiEvent) :
    routePipeline rand timeMin apiEvents =
      List.insertionSort peLe (surgeryCounters
        (daysLoop rand
          (mergeGo [] ((apiEvents.map processApiEvent).filter (fun e => e.stop ≥ timeMin)))
          30 (civilDayIdx timeMin) 0).1) := rfl

/-! ## Small matcher facts for the classifier claims -/

theorem rmatch_opt_isSome (q : Char → Bool) (s : Str) : (rmatch [.opt q] s).isSome = true := by
  cases s with
  | nil => rfl
  | cons d ds =>
    unfold rmatch
    by_cases h : q d
    · rw [if_pos h]
      rfl
    · rw [if_neg h]
      rfl

theorem rmatch_litopt_isSome (p q : Char → Bool) (c : Char) (rest : Str) (hp : p c = true) :
    (rmatch [.lit p, .opt q] (c :: rest)).isSome = true := by
  unfold rmatch
  rw [if_pos hp]
  have h := rmatch_opt_isSome q rest
  cases hm : rmatch [RItem.opt q] rest with
  | none => rw [hm] at h; simp at h
  | some n => rfl

/-! ## Claim theorems -/

/-- C1: every `AvailableSlot` emitted by the per-day availability derivation
lies inside the day's resolved policy window and intersects no busy interval
of that day's blocks, the busy interval of a `Surgery` block being extended
10 minutes earlier by the pre-operative buffer (`busyOf`). -/
theorem availability_never_overlaps_busy (dayEvents : List PEvent) (refDate : Int)
    (f : PEvent) (hf : f ∈ daySlots dayEvents refDate) :
    (getDayLimits refDate).1 ≤ f.start ∧ f.stop ≤ (getDayLimits refDate).2 ∧
      ∀ e ∈ dayEvents, f.stop ≤ (busyOf e).start ∨ (busyOf e).stop ≤ f.start := by
  obtain ⟨h1, _, h3, _, _, _, _, h8⟩ := daySlots_spec dayEvents refDate f hf
  exact ⟨h1, h3, h8⟩

/-- Witness for C1 at a concrete day: the morning slot before a 10:00–12:00
Monday surgery stays inside the window and clear of the buffered interval. -/
theorem availability_never_overlaps_busy_witness :
    monMorningSlot ∈ daySlots [sampleSurgeryP] (istMidnight monIdx) ∧
      ((getDayLimits (istMidnight monIdx)).1 ≤ monMorningSlot.start ∧
        monMorningSlot.stop ≤ (getDayLimits (istMidnight monIdx)).2 ∧
        ∀ e ∈ [sampleSurgeryP],
          monMorningSlot.stop ≤ (busyOf e).start ∨ (busyOf e).stop ≤ monMorningSlot.start) :=
  ⟨by decide, availability_never_overlaps_busy [sampleSurgeryP] (istMidnight monIdx)
    monMorningSlot (by decide)⟩

/-- C5: on a date whose Istanbul weekday is Sunday, every slot the
availability deriver returns lies entirely within 08:00–09:30 civil time of
that day. -/
theorem sunday_slots_within_morning (dayEvents : List PEvent) (refDate : Int)
    (hsun : weekdayOf (civilDayIdx refDate) = 0) (f : PEvent)
    (hf : f ∈ daySlots dayEvents refDate) :
    mkTime (civilDayIdx refDate) 8 0 ≤ f.start ∧
      f.stop ≤ mkTime (civilDayIdx refDate) 9 30 := by
  obtain ⟨h1, _, h3, _⟩ := daySlots_spec dayEvents refDate f hf
  rw [getDayLimits_sunday refDate hsun] at h1 h3
  exact ⟨h1, h3⟩

/-- Witness for C5 at a concrete empty Sunday. -/
theorem sunday_slots_within_morning_witness :
    weekdayOf (civilDayIdx (istMidnight sunIdx)) = 0 ∧
      sunFullSlot ∈ daySlots [] (istMidnight sunIdx) ∧
      (mkTime (civilDayIdx (istMidnight sunIdx)) 8 0 ≤ sunFullSlot.start ∧
        sunFullSlot.stop ≤ mkTime (civilDayIdx (istMidnight sunIdx)) 9 30) :=
  ⟨by decide, by decide,
    sunday_slots_within_morning [] (istMidnight sunIdx) (by decide) sunFullSlot (by decide)⟩

/-- C8: a display day with zero busy intervals yields exactly the blackout
subtraction of the full resolved business window; on weekdays without a
blackout window this is exactly one slot spanning the whole window. -/
theorem empty_day_yields_full_window (refDate : Int) :
    daySlots [] refDate =
      (applyBlackout (getDayLimits refDate).1 (getDayLimits refDate).2 refDate).map
        (fun f => { f with id := ("gap-eod-".data) }) ∧
      (¬(2 ≤ weekdayOf (civilDayIdx refDate) ∧ weekdayOf (civilDayIdx refDate) ≤ 4) →
        daySlots [] refDate =
          [{ mkAvail (getDayLimits refDate).1 (getDayLimits refDate).2 with
              id := ("gap-eod-".data) }]) := by
  have hl := limits_within_day refDate
  have hmain : daySlots [] refDate =
      (applyBlackout (getDayLimits refDate).1 (getDayLimits refDate).2 refDate).map
        (fun f => { f with id := ("gap-eod-".data) }) := by
    show sweepGo refDate (getDayLimits refDate).1 (getDayLimits refDate).2
        (getDayLimits refDate).1 [] = _
    unfold sweepGo
    rw [if_pos ⟨hl.2.2.1, hl.2.2.2⟩]
  refine ⟨hmain, ?_⟩
  intro hbw
  rw [hmain]
  unfold applyBlackout
  rw [if_neg hbw]
  rfl

/-- Witness for C8 on a concrete Monday (no blackout weekday). -/
theorem empty_day_yields_full_window_witness :
    ¬(2 ≤ weekdayOf (civilDayIdx (istMidnight monIdx)) ∧
        weekdayOf (civilDayIdx (istMidnight monIdx)) ≤ 4) ∧
      daySlots [] (istMidnight monIdx) =
        [{ mkAvail (getDayLimits (istMidnight monIdx)).1 (getDayLimits (istMidnight monIdx)).2 with
            id := ("gap-eod-".data) }] :=
  ⟨by decide, (empty_day_yields_full_window (istMidnight monIdx)).2 (by decide)⟩

/-- C3 counterexample: the blocked-keyword rule precedes the red-color rule,
so the title `xxx` with the reserved red color tag is classified blocked
(busy), not cancelled/ignored, contradicting the claim that the red color
overrides busy keywords. -/
theorem red_color_overridden_by_blocked_keyword :
    isRed (some ("11".data)) = true ∧
      categorizeEvent ("xxx".data) (some ("11".data)) none none = Cat.blocked ∧
      Cat.blocked ≠ Cat.ignore := by decide

/-- C3 amended: when the colorTag is one of the reserved red identifiers and
no blocked keyword matches the normalized title, `categorizeEvent` returns
the cancelled/ignored category regardless of any other title text. -/
theorem red_color_cancels_without_blocked_keyword (title : Str) (color : Option Str)
    (startMs endMs : Option Int) (hred : isRed color = true)
    (hnb : blockedHit title = false) :
    categorizeEvent title color startMs endMs = Cat.ignore := by
  unfold categorizeEvent
  simp [hnb, hred]

/-- Witness for the amended C3: a patient-style title with the red tag. -/
theorem red_color_cancels_without_blocked_keyword_witness :
    isRed (some ("11".data)) = true ∧ blockedHit ("Ayşe muayene".data) = false ∧
      categorizeEvent ("Ayşe muayene".data) (some ("11".data)) none none = Cat.ignore :=
  ⟨by decide, by decide,
    red_color_cancels_without_blocked_keyword ("Ayşe muayene".data) (some ("11".data))
      none none (by decide) (by decide)⟩

/-- C6: the classifier is a total function into the fixed category
enumeration, and an input on which no rule fires resolves to the default
appointment category. -/
theorem classify_total_default (title : Str) (color : Option Str) (startMs endMs : Option Int)
    (h1 : blockedHit title = false) (h2 : isRed color = false) (h3 : infoHit title = false)
    (h4 : ignorePrefixHit title = false) (h5 : surgeryCand title = false)
    (h6 : checkupHit title = false) (h7 : examHit title = false) :
    categorizeEvent title color startMs endMs = Cat.appointment ∧
      categorizeEvent title color startMs endMs ∈
        [Cat.surgery, Cat.checkup, Cat.appointment, Cat.blocked, Cat.ignore] := by
  constructor
  · unfold categorizeEvent
    simp [h1, h2, h3, h4, h5, h6, h7]
  · generalize categorizeEvent title color startMs endMs = c
    cases c <;> simp

/-- Witness for C6: an ordinary two-token name matches no rule and falls to
the appointment default. -/
theorem classify_total_default_witness :
    blockedHit ("Ahmet Bey".data) = false ∧ surgeryCand ("Ahmet Bey".data) = false ∧
      checkupHit ("Ahmet Bey".data) = false ∧ examHit ("Ahmet Bey".data) = false ∧
      categorizeEvent ("Ahmet Bey".data) none none none = Cat.appointment :=
  ⟨by decide, by decide, by decide, by decide,
    (classify_total_default ("Ahmet Bey".data) none none none (by decide) (by decide)
      (by decide) (by decide) (by decide) (by decide) (by decide)).1⟩

/-- C9: a title whose first character is `k` or `K`, on which no earlier rule
fires (no blocked keyword, red color, info glyph, ignore prefix, surgery
marker or leading clock pattern, and no online keyword), is classified as a
checkup/Control, because the checkup pattern needs only the leading letter. -/
theorem k_prefix_defaults_to_checkup (title : Str) (color : Option Str)
    (startMs endMs : Option Int)
    (hk : title.head? = some 'k' ∨ title.head? = some 'K')
    (h1 : blockedHit title = false) (h2 : isRed color = false) (h3 : infoHit title = false)
    (h4 : ignorePrefixHit title = false) (h5 : surgeryCand title = false)
    (hon : containsSeq ("online".data) (normalizeName title) = false) :
    categorizeEvent title color startMs endMs = Cat.checkup := by
  have hchk : checkupHit title = true := by
    unfold checkupHit
    cases title with
    | nil => rcases hk with hk | hk <;> simp [List.head?] at hk
    | cons c rest =>
      have hc : c = 'k' ∨ c = 'K' := by
        rcases hk with hk | hk <;> simp [List.head?] at hk <;> simp [hk]
      rw [rmatch_litopt_isSome _ _ c rest (by simpa using hc)]
      simp
  unfold categorizeEvent
  simp [h1, h2, h3, h4, h5, hchk]

/-- Witness for C9: a patient name starting with K is classified Control. -/
theorem k_prefix_defaults_to_checkup_witness :
    blockedHit ("Kamile Demir".data) = false ∧ surgeryCand ("Kamile Demir".data) = false ∧
      categorizeEvent ("Kamile Demir".data) none none none = Cat.checkup :=
  ⟨by decide, by decide,
    k_prefix_defaults_to_checkup ("Kamile Demir".data) none none none (by decide) (by decide)
      (by decide) (by decide) (by decide) (by decide) (by decide)⟩

/-- C7: three Control events with 10-minute gaps merge into one block with
`memberCount = 3` spanning the first start to the last end, while the same
events spaced 20 minutes apart pass through unchanged, with no
single-member wrapping. -/
theorem merge_close_vs_spaced :
    mergeGo [] [ctrlEvent 1 monTen, ctrlEvent 2 (monTen + 40 * msPerMin),
        ctrlEvent 3 (monTen + 80 * msPerMin)] = [ctrlSummaryExpected] ∧
      mergeGo [] [ctrlEvent 1 monTen, ctrlEvent 2 (monTen + 50 * msPerMin),
        ctrlEvent 3 (monTen + 100 * msPerMin)] =
        [ctrlEvent 1 monTen, ctrlEvent 2 (monTen + 50 * msPerMin),
          ctrlEvent 3 (monTen + 100 * msPerMin)] := by decide

/-- C2 counterexample: on a batch with one surgery, the response's surgery
record carries the title `Ameliyat (1/1)` (generic word plus the day
counter), which is not an element of the fixed generic title set. -/
theorem pipeline_title_outside_generic_set :
    ∃ r ∈ routePipeline randA (istMidnight monIdx) [sampleSurgeryApi],
      r.type = EType.Surgery ∧ r.title ∉ genericTitles := by decide

/-- C2 amended: every record of the pipeline response has a title built only
from the fixed localized vocabulary (generic titles, numeric summary parts,
surgery counters), and the only output datum derived from an original event
title is the abbreviated patient label attached to surgery records. -/
theorem pipeline_titles_generic (rand : Nat → Str) (timeMin : Int)
    (apiEvents : List ApiEvent) :
    ∀ r ∈ routePipeline rand timeMin apiEvents, SafeRecord apiEvents r := by
  intro r hr
  rw [routePipeline_eq] at hr
  have hr2 := (List.perm_insertionSort peLe _).mem_iff.1 hr
  obtain ⟨e, he, hcase⟩ := surgeryCounters_mem _ r hr2
  have hmerged : ∀ x ∈ mergeGo []
      ((apiEvents.map processApiEvent).filter (fun ev => ev.stop ≥ timeMin)),
      SafeRecord apiEvents x := by
    refine mergeGo_preserve _ (createSummaryBlock_safe apiEvents) _ [] (by simp) ?_
    intro x hx
    have hx2 := List.mem_of_mem_filter hx
    rw [List.mem_map] at hx2
    obtain ⟨a, ha, rfl⟩ := hx2
    exact processApiEvent_safe apiEvents a ha
  have hesafe : SafeRecord apiEvents e := by
    rcases daysLoop_mem rand _ 30 (civilDayIdx timeMin) 0 e he with
      ⟨hm, _, _⟩ | ⟨j, _, _, f, hf, hef⟩
    · exact hmerged e hm
    · obtain ⟨hti, _, _, _, hpn, _⟩ := eraseId_fields e f hef
      obtain ⟨_, _, _, hft, _, hfpn, _, _⟩ := daySlots_spec _ _ f hf
      constructor
      · rw [hti, hft]
        exact SafeTitle.base _ (by decide)
      · rw [hpn, hfpn]
        exact Or.inl rfl
  rcases hcase with rfl | ⟨hsurg, hstart, hstop, htype, hpn2, hcnt, hid, rk, nk, htitle⟩
  · exact hesafe
  · constructor
    · rw [htitle]
      exact SafeTitle.counter _ _ _ hesafe.1
    · rcases hesafe.2 with h | ⟨ht, a, ha, hpe⟩
      · exact Or.inl (by rw [hpn2, h])
      · exact Or.inr ⟨by rw [htype, ht], a, ha, by rw [hpn2, hpe]⟩

/-- Witness for the amended C2 at the sample batch and its surgery record. -/
theorem pipeline_titles_generic_witness :
    surgOutRec ∈ routePipeline randA (istMidnight monIdx) [sampleSurgeryApi] ∧
      SafeRecord [sampleSurgeryApi] surgOutRec :=
  ⟨by decide, pipeline_titles_generic randA (istMidnight monIdx) [sampleSurgeryApi]
    surgOutRec (by decide)⟩

/-- C10: every record of the endpoint response starts within the 30
consecutive Istanbul civil days beginning at the day of `timeMin`, and every
busy (non-Available) record survives the end filter, ending no earlier than
`timeMin`. -/
theorem response_within_thirty_days (rand : Nat → Str) (timeMin : Int)
    (apiEvents : List ApiEvent) :
    ∀ r ∈ routePipeline rand timeMin apiEvents,
      civilDayIdx timeMin ≤ civilDayIdx r.start ∧
      civilDayIdx r.start < civilDayIdx timeMin + 30 ∧
      (r.type ≠ EType.Available → timeMin ≤ r.stop) := by
  intro r hr
  rw [routePipeline_eq] at hr
  have hr2 := (List.perm_insertionSort peLe _).mem_iff.1 hr
  obtain ⟨e, he, hcase⟩ := surgeryCounters_mem _ r hr2
  have hmstop : ∀ x ∈ mergeGo []
      ((apiEvents.map processApiEvent).filter (fun ev => ev.stop ≥ timeMin)),
      timeMin ≤ x.stop := by
    refine mergeGo_preserve (fun x => timeMin ≤ x.stop) ?_ _ [] (by simp) ?_
    · intro buffer hne hall
      obtain ⟨b, hb, hbe⟩ := createSummaryBlock_stop_mem buffer hne
      rw [hbe]
      exact hall b hb
    · intro x hx
      have h2 := (List.mem_filter.1 hx).2
      simpa using h2
  have hekey : (civilDayIdx timeMin ≤ civilDayIdx e.start ∧
      civilDayIdx e.start < civilDayIdx timeMin + 30) ∧
      (e.type ≠ EType.Available → timeMin ≤ e.stop) := by
    rcases daysLoop_mem rand _ 30 (civilDayIdx timeMin) 0 e he with
      ⟨hm, hlo, hhi⟩ | ⟨j, hjlo, hjhi, f, hf, hef⟩
    · exact ⟨⟨hlo, by omega⟩, fun _ => hmstop e hm⟩
    · obtain ⟨_, hst, _, hty, _, _⟩ := eraseId_fields e f hef
      have hday := daySlots_start_day _ j f hf
      obtain ⟨_, _, _, _, hfty, _, _, _⟩ := daySlots_spec _ _ f hf
      refine ⟨⟨by rw [hst, hday]; omega, by rw [hst, hday]; omega⟩, ?_⟩
      intro hne
      exact absurd (by rw [hty, hfty]) hne
  rcases hcase with rfl | ⟨hsurg, hstart, hstop, htype, hpn2, hcnt, hid, rk, nk, htitle⟩
  · exact ⟨hekey.1.1, hekey.1.2, hekey.2⟩
  · refine ⟨by rw [hstart]; exact hekey.1.1, by rw [hstart]; exact hekey.1.2, ?_⟩
    intro hne
    rw [hstop]
    refine hekey.2 ?_
    rw [htype] at hne
    exact hne

/-- Witness for C10 at the sample batch and its surgery record. -/
theorem response_within_thirty_days_witness :
    surgOutRec ∈ routePipeline randB (istMidnight monIdx) [sampleSurgeryApi] ∧
      (civilDayIdx (istMidnight monIdx) ≤ civilDayIdx surgOutRec.start ∧
        civilDayIdx surgOutRec.start < civilDayIdx (istMidnight monIdx) + 30 ∧
        (surgOutRec.type ≠ EType.Available → istMidnight monIdx ≤ surgOutRec.stop)) :=
  ⟨by decide, response_within_thirty_days randB (istMidnight monIdx) [sampleSurgeryApi]
    surgOutRec (by decide)⟩

/-! ## Determinism modulo gap ids -/

theorem IdEq_refl (a : PEvent) : IdEq a a := rfl

theorem IdEq_fields (a b : PEvent) (h : IdEq a b) :
    a.title = b.title ∧ a.start = b.start ∧ a.stop = b.stop ∧ a.type = b.type ∧
    a.patientName = b.patientName ∧ a.count = b.count := eraseId_fields a b h

theorem IdEq_of_fields (a b : PEvent) (h1 : a.title = b.title) (h2 : a.start = b.start)
    (h3 : a.stop = b.stop) (h4 : a.type = b.type) (h5 : a.patientName = b.patientName)
    (h6 : a.count = b.count) : IdEq a b := by
  cases a
  cases b
  unfold IdEq eraseId
  simp_all

theorem forall2_append {α : Type} (R : α → α → Prop) {l1 l2 u1 u2 : List α}
    (h : List.Forall₂ R l1 l2) (hu : List.Forall₂ R u1 u2) :
    List.Forall₂ R (l1 ++ u1) (l2 ++ u2) := by
  induction h with
  | nil => simpa using hu
  | cons hab htl ih => exact List.Forall₂.cons hab ih

theorem forall2_map {α β : Type} (R : α → α → Prop) (S : β → β → Prop) (f g : α → β)
    {l1 l2 : List α} (h : List.Forall₂ R l1 l2) (hfg : ∀ a b, R a b → S (f a) (g b)) :
    List.Forall₂ S (l1.map f) (l2.map g) := by
  induction h with
  | nil => exact List.Forall₂.nil
  | cons hab htl ih => exact List.Forall₂.cons (hfg _ _ hab) ih

theorem forall2_filter {α : Type} (R : α → α → Prop) (p : α → Bool)
    (hp : ∀ a b, R a b → p a = p b) {l1 l2 : List α} (h : List.Forall₂ R l1 l2) :
    List.Forall₂ R (l1.filter p) (l2.filter p) := by
  induction h with
  | nil => exact List.Forall₂.nil
  | cons hab htl ih =>
    rename_i a b tl1 tl2
    rw [List.filter_cons, List.filter_cons]
    by_cases hpa : p a = true
    · rw [if_pos hpa, if_pos (by rw [← hp a b hab]; exact hpa)]
      exact List.Forall₂.cons hab ih
    · rw [if_neg hpa, if_neg (by rw [← hp a b hab]; exact hpa)]
      exact ih

theorem forall2_orderedInsert {α : Type} (R : α → α → Prop) (le : α → α → Prop)
    [DecidableRel le] (hcmp : ∀ a b a' b', R a a' → R b b' → (le a b ↔ le a' b')) :
    ∀ (a a' : α) {l l' : List α}, R a a' → List.Forall₂ R l l' →
      List.Forall₂ R (List.orderedInsert le a l) (List.orderedInsert le a' l') := by
  intro a a' l l' haa h
  induction h with
  | nil => exact List.Forall₂.cons haa List.Forall₂.nil
  | cons hbb htl ih =>
    rename_i b b' tl1 tl2
    show List.Forall₂ R (List.orderedInsert le a (b :: tl1))
      (List.orderedInsert le a' (b' :: tl2))
    unfold List.orderedInsert
    by_cases hab : le a b
    · rw [if_pos hab, if_pos ((hcmp a b a' b' haa hbb).1 hab)]
      exact List.Forall₂.cons haa (List.Forall₂.cons hbb htl)
    · rw [if_neg hab, if_neg (fun hc => hab ((hcmp a b a' b' haa hbb).2 hc))]
      exact List.Forall₂.cons hbb ih

theorem forall2_insertionSort {α : Type} (R : α → α → Prop) (le : α → α → Prop)
    [DecidableRel le] (hcmp : ∀ a b a' b', R a a' → R b b' → (le a b ↔ le a' b'))
    {l1 l2 : List α} (h : List.Forall₂ R l1 l2) :
    List.Forall₂ R (List.insertionSort le l1) (List.insertionSort le l2) := by
  induction h with
  | nil => exact List.Forall₂.nil
  | cons hab htl ih =>
    exact forall2_orderedInsert R le hcmp _ _ hab ih

theorem findIdx?_congr {α : Type} (R : α → α → Prop) (p q : α → Bool)
    (hpq : ∀ a b, R a b → p a = q b) :
    ∀ {l1 l2 : List α}, List.Forall₂ R l1 l2 → ∀ i : Nat,
      List.findIdx? p l1 i = List.findIdx? q l2 i := by
  intro l1 l2 h
  induction h with
  | nil => intro i; rfl
  | cons hab htl ih =>
    rename_i a b tl1 tl2
    intro i
    show (if p a = true then some i else List.findIdx? p tl1 (i + 1)) =
      (if q b = true then some i else List.findIdx? q tl2 (i + 1))
    rw [hpq a b hab]
    by_cases hq : q b = true
    · rw [if_pos hq, if_pos hq]
    · rw [if_neg hq, if_neg hq]
      exact ih (i + 1)

theorem enumFrom_rel {α : Type} (R : α → α → Prop) :
    ∀ {l1 l2 : List α}, List.Forall₂ R l1 l2 → ∀ n : Nat,
      List.Forall₂ (fun p q => p.1 = q.1 ∧ R p.2 q.2) (l1.enumFrom n) (l2.enumFrom n) := by
  intro l1 l2 h
  induction h with
  | nil => intro n; exact List.Forall₂.nil
  | cons hab htl ih =>
    intro n
    rw [List.enumFrom_cons, List.enumFrom_cons]
    exact List.Forall₂.cons ⟨rfl, hab⟩ (ih (n + 1))

theorem forall2_map_eraseId {l1 l2 : List PEvent} (h : List.Forall₂ IdEq l1 l2) :
    l1.map eraseId = l2.map eraseId := by
  induction h with
  | nil => rfl
  | cons hab htl ih =>
    rw [List.map_cons, List.map_cons, ih, hab]

theorem tagIds_rel (r1 r2 : Nat → Str) :
    ∀ (l : List PEvent) (c1 c2 : Nat),
      List.Forall₂ IdEq (tagIds r1 c1 l).1 (tagIds r2 c2 l).1 := by
  intro l
  induction l with
  | nil => intro c1 c2; exact List.Forall₂.nil
  | cons f fs ih =>
    intro c1 c2
    unfold tagIds
    dsimp only
    exact List.Forall₂.cons rfl (ih (c1 + 1) (c2 + 1))

theorem daysLoop_rel (r1 r2 : Nat → Str) (merged : List PEvent) :
    ∀ (rem : Nat) (dayIdx : Int) (c1 c2 : Nat),
      List.Forall₂ IdEq (daysLoop r1 merged rem dayIdx c1).1
        (daysLoop r2 merged rem dayIdx c2).1 := by
  intro rem
  induction rem with
  | zero => intro _ _ _; exact List.Forall₂.nil
  | succ rem ih =>
    intro dayIdx c1 c2
    unfold daysLoop
    dsimp only
    refine forall2_append IdEq
      (forall2_append IdEq (List.forall₂_same.2 (fun x _ => IdEq_refl x))
        (tagIds_rel r1 r2 _ _ _))
      (ih (dayIdx + 1) _ _)

theorem IdEq_setTitle (a b : PEvent) (x y : Str) (h : IdEq a b) (hxy : x = y) :
    IdEq ({ a with title := x }) ({ b with title := y }) := by
  obtain ⟨_, h2, h3, h4, h5, h6⟩ := IdEq_fields a b h
  refine IdEq_of_fields _ _ ?_ ?_ ?_ ?_ ?_ ?_ <;> simp [h2, h3, h4, h5, h6, hxy]

theorem getD_congr {o1 o2 : Option Nat} (h : o1 = o2) : o1.getD 0 = o2.getD 0 := by rw [h]

theorem surgeryCounters_rel (l1 l2 : List PEvent) (h : List.Forall₂ IdEq l1 l2) :
    List.Forall₂ IdEq (surgeryCounters l1) (surgeryCounters l2) := by
  unfold surgeryCounters
  dsimp only
  have henum : List.Forall₂ (fun p q => p.1 = q.1 ∧ IdEq p.2 q.2) l1.enum l2.enum :=
    enumFrom_rel IdEq h 0
  refine forall2_map _ IdEq _ _ henum ?_
  intro p q hpq
  obtain ⟨hidx, hrel⟩ := hpq
  obtain ⟨hti, hst, hsp, hty, hpn, hcn⟩ := IdEq_fields _ _ hrel
  by_cases hs : p.2.type = EType.Surgery
  · rw [if_pos hs, if_pos (by rw [← hty]; exact hs)]
    have hgrp : List.Forall₂ (fun a b : Nat × PEvent => a.1 = b.1 ∧ IdEq a.2 b.2)
        (l1.enum.filter
          (fun je => decide (je.2.type = EType.Surgery ∧ civilDayIdx je.2.start = civilDayIdx p.2.start)))
        (l2.enum.filter
          (fun je => decide (je.2.type = EType.Surgery ∧ civilDayIdx je.2.start = civilDayIdx q.2.start))) := by
      rw [← hst]
      refine forall2_filter _ _ ?_ henum
      intro a b hab
      obtain ⟨_, has, _, haty, _, _⟩ := IdEq_fields _ _ hab.2
      simp [haty, has]
    have hranked := forall2_insertionSort _ ipeLe
      (fun a b a' b' ha hb => by
        obtain ⟨_, has, _, _, _, _⟩ := IdEq_fields _ _ ha.2
        obtain ⟨_, hbs, _, _, _, _⟩ := IdEq_fields _ _ hb.2
        unfold ipeLe
        rw [has, hbs]) hgrp
    have hfind := findIdx?_congr _ (fun je => decide (je.1 = p.1)) (fun je => decide (je.1 = q.1))
      (fun a b hab => by
        show decide (a.1 = p.1) = decide (b.1 = q.1)
        rw [hab.1, hidx]) hranked 0
    have hlen := List.Forall₂.length_eq hranked
    refine IdEq_setTitle _ _ _ _ hrel ?_
    rw [hti, getD_congr hfind, hlen]
  · rw [if_neg hs, if_neg (by rw [← hty]; exact hs)]
    exact hrel

/-- C4 counterexample: with two different draws of the `Math.random()` stream
that builds the synthesized slot ids, even the empty input batch produces two
different responses; the output is not byte-identical across runs. -/
theorem pipeline_output_differs_across_runs :
    routePipeline randA (istMidnight monIdx) [] ≠
      routePipeline randB (istMidnight monIdx) [] := by decide

/-- C4 amended: the pipeline run on the same frozen batch with the same date
parameter is deterministic in every field except the ids of synthesized
availability slots, which embed one `Math.random()` draw each; erasing ids,
any two runs agree byte for byte. -/
theorem pipeline_deterministic_modulo_ids (r1 r2 : Nat → Str) (timeMin : Int)
    (apiEvents : List ApiEvent) :
    (routePipeline r1 timeMin apiEvents).map eraseId =
      (routePipeline r2 timeMin apiEvents).map eraseId := by
  rw [routePipeline_eq, routePipeline_eq]
  exact forall2_map_eraseId
    (forall2_insertionSort IdEq peLe
      (fun a b a' b' ha hb => by
        obtain ⟨_, has, _, _, _, _⟩ := IdEq_fields _ _ ha
        obtain ⟨_, hbs, _, _, _, _⟩ := IdEq_fields _ _ hb
        unfold peLe
        rw [has, hbs])
      (surgeryCounters_rel _ _ (daysLoop_rel r1 r2 _ 30 (civilDayIdx timeMin) 0 0)))
